import Mathlib

set_option maxHeartbeats 1000000

/-!
Formal model of the chess engine in `src/Chess/main.py`.

The source has three components: the static evaluator `evaluate_board`,
the alpha-beta search `minimax`, and the move selector `find_best_move`.
The rules engine (`python-chess`) is external to the core; the search is
therefore modelled over an abstract `Game` interface providing move
enumeration, push/pop, terminal tests, side to move and evaluation, while
the evaluator is modelled concretely over the multiset of pieces on the
board (the only data it reads).

Scores in the source are Python floats that are either exact small
integers (sums of piece values) or the sentinels `float("inf")` and
`float("-inf")`; they are modelled as `WithBot (WithTop ℤ)`.
-/

/-- Scores: signed integers extended with the sentinels `float("-inf")`
(`⊥`) and `float("inf")` (`⊤`) used by the Python code. -/
abbrev Score := WithBot (WithTop ℤ)

/-- A finite score. -/
def sFin (n : ℤ) : Score := ((n : WithTop ℤ) : Score)

/-- The interface the engine consumes from the rules engine
(`python-chess` in the source, per spec an external collaborator):
legal-move enumeration, move application and undo, terminal tests,
side to move, and static evaluation of a position.  Colors follow
`python-chess`: `chess.WHITE = True`, `chess.BLACK = False`; we expose
the turn as the boolean `turnIsBlack` because that is the test
`board.turn == chess.BLACK` made by `find_best_move`. -/
structure Game (Pos Move : Type) where
  legalMoves : Pos → List Move
  push : Pos → Move → Pos
  pop : Pos → Pos
  isGameOver : Pos → Bool
  isCheckmate : Pos → Bool
  turnIsBlack : Pos → Bool
  evaluate : Pos → ℤ

variable {Pos Move : Type}

/-- The maximizing branch of `minimax` (`main.py` lines 74-85): the loop
over legal moves.  `beta` is the caller's beta (not mutated in this
branch); the loop state is `(alpha, best_score, best_move)`.  A move's
score replaces the incumbent only when strictly greater; after an update
`alpha = max(alpha, score)` and the loop breaks when `alpha >= beta`.
Board mutation (`push`/`pop`) is collapsed: the recursive call receives
`G.push b move` and the board is unchanged for the next iteration (the
state-threaded version `maximizingLoopSt` below models the mutation
explicitly). -/
def maximizingLoop (G : Game Pos Move)
    (rec : Pos → Score → Score → Score × Option Move)
    (b : Pos) (beta : Score) :
    List Move → Score → Score → Option Move → Score × Option Move
  | [], _alpha, best_score, best_move => (best_score, best_move)
  | move :: rest, alpha, best_score, best_move =>
    let score := (rec (G.push b move) alpha beta).1
    if best_score < score then
      if beta ≤ max alpha score then (score, some move)
      else maximizingLoop G rec b beta rest (max alpha score) score (some move)
    else maximizingLoop G rec b beta rest alpha best_score best_move

/-- The minimizing branch of `minimax` (`main.py` lines 86-97): mirror of
`maximizingLoop`.  `alpha` is the caller's alpha; the loop state is
`(beta, best_score, best_move)`; a strictly smaller score updates, then
`beta = min(beta, score)` and the loop breaks when `alpha >= beta`. -/
def minimizingLoop (G : Game Pos Move)
    (rec : Pos → Score → Score → Score × Option Move)
    (b : Pos) (alpha : Score) :
    List Move → Score → Score → Option Move → Score × Option Move
  | [], _beta, best_score, best_move => (best_score, best_move)
  | move :: rest, beta, best_score, best_move =>
    let score := (rec (G.push b move) alpha beta).1
    if score < best_score then
      if min beta score ≤ alpha then (score, some move)
      else minimizingLoop G rec b alpha rest (min beta score) score (some move)
    else minimizingLoop G rec b alpha rest beta best_score best_move

/-- One unfolding of `minimax` (`main.py` lines 67-99) at positive depth:
base case on `board.is_game_over()`, otherwise the branch on
`maximizing_player`.  Note the source *resets* `alpha = -INFINITY` on
entry to the maximizing branch (line 75) and `beta = INFINITY` on entry
to the minimizing branch (line 87), so the maximizing loop starts with
`alpha = ⊥` (and `best_score = ⊥` from line 71), the minimizing loop
with `beta = ⊤` and `best_score = ⊤`. -/
def minimaxCore (G : Game Pos Move)
    (rec : Pos → Score → Score → Bool → Score × Option Move)
    (b : Pos) (alpha beta : Score) (maximizing : Bool) : Score × Option Move :=
  if G.isGameOver b then (sFin (G.evaluate b), none)
  else if maximizing then
    maximizingLoop G (fun p a bt => rec p a bt false) b beta (G.legalMoves b) ⊥ ⊥ none
  else
    minimizingLoop G (fun p a bt => rec p a bt true) b alpha (G.legalMoves b) ⊤ ⊤ none

/-- `minimax(board, depth, alpha, beta, maximizing_player)` from
`main.py` lines 36-99 (value semantics; the board-restoration behaviour
is modelled by `minimaxSt` below).  At depth 0 the depth test
`depth == 0` fires before anything else, returning
`(evaluate_board(board), None)`. -/
def minimax (G : Game Pos Move) : ℕ → Pos → Score → Score → Bool → Score × Option Move
  | 0 => fun b _ _ _ => (sFin (G.evaluate b), none)
  | d + 1 => minimaxCore G (minimax G d)

/-- The initial `(maximizing_player, alpha, beta)` triple chosen by
`find_best_move` (`main.py` lines 130-137): black is the maximizing
player with window `(-inf, inf)`; for white the source sets
`alpha = INFINITY` and `beta = -INFINITY`. -/
def searchWindow (G : Game Pos Move) (b : Pos) : Bool × Score × Score :=
  if G.turnIsBlack b then (true, ⊥, ⊤) else (false, ⊤, ⊥)

/-- `find_best_move(board, depth)` from `main.py` lines 104-148: pick the
window from the side to move, run `minimax`, and if no move came back
while the position is checkmate, override the score with the losing or
winning sentinel (`-inf` when white is to move, `inf` when black is). -/
def find_best_move (G : Game Pos Move) (b : Pos) (depth : ℕ) : Score × Option Move :=
  let w := searchWindow G b
  let r := minimax G depth b w.2.1 w.2.2 w.1
  match r.2 with
  | none =>
    if G.isCheckmate b then
      if !(G.turnIsBlack b) then ((⊥ : Score), none) else ((⊤ : Score), none)
    else r
  | some _ => r

/-- Brute-force minimax: same depth, same evaluator, same move
enumeration order, no pruning.  This is the specification-side
definition for the pruning-equivalence claim, following the spec's words
("the score returned by a brute-force minimax with the same depth and no
pruning, given the same evaluator and move order"). -/
def bruteForceCore (G : Game Pos Move) (rec : Pos → Bool → Score)
    (b : Pos) (maximizing : Bool) : Score :=
  if G.isGameOver b then sFin (G.evaluate b)
  else if maximizing then
    (G.legalMoves b).foldl (fun acc m => max acc (rec (G.push b m) false)) ⊥
  else
    (G.legalMoves b).foldl (fun acc m => min acc (rec (G.push b m) true)) ⊤

/-- Brute-force (pruning-free) minimax value, by depth. -/
def bruteForce (G : Game Pos Move) : ℕ → Pos → Bool → Score
  | 0 => fun b _ => sFin (G.evaluate b)
  | d + 1 => bruteForceCore G (bruteForce G d)

/-- A small concrete game used for counterexamples and witnesses:
positions are the list of moves played (most recent first), each side
always has the two moves `false` and `true`, the game never ends, and
the evaluation distinguishes the two depth-1 children of the empty
position.  `pop` drops the most recent move, so push/pop pair exactly as
`python-chess` guarantees. -/
def Gex : Game (List Bool) Bool where
  legalMoves _ := [false, true]
  push b m := m :: b
  pop b := b.tail
  isGameOver _ := false
  isCheckmate _ := false
  turnIsBlack b := b.length % 2 == 1
  evaluate b :=
    match b with
    | [false] => 5
    | [true] => 3
    | _ => 0

/-- Like `Gex` but the second child of the root is the better one for the
maximizing player (used for the alpha-reset counterexample). -/
def Gc4 : Game (List Bool) Bool where
  legalMoves _ := [false, true]
  push b m := m :: b
  pop b := b.tail
  isGameOver _ := false
  isCheckmate _ := false
  turnIsBlack b := b.length % 2 == 1
  evaluate b :=
    match b with
    | [false] => 5
    | [true] => 20
    | _ => 0

/-- A terminal position that is not checkmate (a stalemate/draw): no
legal moves, game over, evaluation 7. -/
def Gstale : Game Unit Unit where
  legalMoves _ := []
  push b _ := b
  pop b := b
  isGameOver _ := true
  isCheckmate _ := false
  turnIsBlack _ := false
  evaluate _ := 7

example : minimax Gex 1 [] ⊤ ⊥ false = (sFin 5, some false) := by decide
example : bruteForce Gex 1 [] false = sFin 3 := by decide
example : find_best_move Gex [] 1 = (sFin 5, some false) := by decide
example : minimax Gc4 1 [] (sFin 10) (sFin 10) true = (sFin 20, some true) := by decide

theorem minimax_succ (G : Game Pos Move) (d : ℕ) (b : Pos) (alpha beta : Score)
    (maximizing : Bool) :
    minimax G (d + 1) b alpha beta maximizing
      = minimaxCore G (minimax G d) b alpha beta maximizing := rfl

theorem bruteForce_succ (G : Game Pos Move) (d : ℕ) (b : Pos) (maximizing : Bool) :
    bruteForce G (d + 1) b maximizing = bruteForceCore G (bruteForce G d) b maximizing := rfl

/-- The initial accumulator is a lower bound of a left max-fold. -/
theorem le_foldl_max (f : Move → Score) :
    ∀ (l : List Move) (a : Score), a ≤ l.foldl (fun x m => max x (f m)) a := by
  intro l
  induction l with
  | nil => intro a; exact le_refl a
  | cons m rest ih =>
    intro a
    exact le_trans (le_max_left a (f m)) (ih (max a (f m)))

/-- The initial accumulator is an upper bound of a left min-fold. -/
theorem foldl_min_le (f : Move → Score) :
    ∀ (l : List Move) (a : Score), l.foldl (fun x m => min x (f m)) a ≤ a := by
  intro l
  induction l with
  | nil => intro a; exact le_refl a
  | cons m rest ih =>
    intro a
    exact le_trans (ih (min a (f m))) (min_le_left a (f m))

/-- Fail-soft invariant of the maximizing loop, for a loop entered with
`alpha = best_score` (as `minimax` does after resetting `alpha`).
`val p` is the true (brute-force) value of the child `p`, and `hrec`
states the fail-soft property of the recursive call on each child: the
returned score is exact whenever the true value beats the alpha it was
given, and otherwise is a bound that can never trigger an update.  The
conclusion: the loop's score is exact below `beta`, and at least `beta`
(but at most the true value) when the true value reaches `beta`. -/
theorem maximizingLoop_failSoft (G : Game Pos Move)
    (rec : Pos → Score → Score → Score × Option Move) (val : Pos → Score)
    (hrec : ∀ p a bt, val p ≤ (rec p a bt).1 ∧
        (a < val p → (rec p a bt).1 = val p) ∧
        (val p ≤ a → (rec p a bt).1 ≤ a))
    (b : Pos) (beta : Score) :
    ∀ (l : List Move) (bs : Score) (bm : Option Move),
      (maximizingLoop G rec b beta l bs bs bm).1
          ≤ l.foldl (fun x m => max x (val (G.push b m))) bs ∧
      (l.foldl (fun x m => max x (val (G.push b m))) bs < beta →
        (maximizingLoop G rec b beta l bs bs bm).1
          = l.foldl (fun x m => max x (val (G.push b m))) bs) ∧
      (beta ≤ l.foldl (fun x m => max x (val (G.push b m))) bs →
        beta ≤ (maximizingLoop G rec b beta l bs bs bm).1) := by
  intro l
  induction l with
  | nil =>
    intro bs bm
    exact ⟨le_refl bs, fun _ => rfl, fun h => h⟩
  | cons move rest ih =>
    intro bs bm
    obtain ⟨h1, h2, h3⟩ := hrec (G.push b move) bs beta
    have hstep : maximizingLoop G rec b beta (move :: rest) bs bs bm
        = if bs < (rec (G.push b move) bs beta).1 then
            (if beta ≤ max bs (rec (G.push b move) bs beta).1
             then ((rec (G.push b move) bs beta).1, some move)
             else maximizingLoop G rec b beta rest
                    (max bs (rec (G.push b move) bs beta).1)
                    (rec (G.push b move) bs beta).1 (some move))
          else maximizingLoop G rec b beta rest bs bs bm := rfl
    have hfold : (move :: rest).foldl (fun x m => max x (val (G.push b m))) bs
        = rest.foldl (fun x m => max x (val (G.push b m)))
            (max bs (val (G.push b move))) := rfl
    rcases lt_or_le bs (val (G.push b move)) with hbc | hcb
    · have hr : (rec (G.push b move) bs beta).1 = val (G.push b move) := h2 hbc
      have hmax : max bs (val (G.push b move)) = val (G.push b move) :=
        max_eq_right hbc.le
      rw [hstep, hr, if_pos hbc, hmax, hfold, hmax]
      rcases le_or_lt beta (val (G.push b move)) with hβc | hcβ
      · rw [if_pos hβc]
        refine ⟨le_foldl_max _ _ _, ?_, fun _ => hβc⟩
        intro hlt
        exact absurd (lt_of_le_of_lt (hβc.trans (le_foldl_max _ _ _)) hlt)
          (lt_irrefl beta)
      · rw [if_neg (not_le.mpr hcβ)]
        exact ih (val (G.push b move)) (some move)
    · have hr : (rec (G.push b move) bs beta).1 ≤ bs := h3 hcb
      have hmax : max bs (val (G.push b move)) = bs := max_eq_left hcb
      rw [hstep, if_neg (not_lt.mpr hr), hfold, hmax]
      exact ih bs bm

/-- Fail-soft invariant of the minimizing loop; mirror of
`maximizingLoop_failSoft`, for a loop entered with `beta = best_score`
(as `minimax` does after resetting `beta`). -/
theorem minimizingLoop_failSoft (G : Game Pos Move)
    (rec : Pos → Score → Score → Score × Option Move) (val : Pos → Score)
    (hrec : ∀ p a bt, (rec p a bt).1 ≤ val p ∧
        (val p < bt → (rec p a bt).1 = val p) ∧
        (bt ≤ val p → bt ≤ (rec p a bt).1))
    (b : Pos) (alpha : Score) :
    ∀ (l : List Move) (bs : Score) (bm : Option Move),
      l.foldl (fun x m => min x (val (G.push b m))) bs
          ≤ (minimizingLoop G rec b alpha l bs bs bm).1 ∧
      (alpha < l.foldl (fun x m => min x (val (G.push b m))) bs →
        (minimizingLoop G rec b alpha l bs bs bm).1
          = l.foldl (fun x m => min x (val (G.push b m))) bs) ∧
      (l.foldl (fun x m => min x (val (G.push b m))) bs ≤ alpha →
        (minimizingLoop G rec b alpha l bs bs bm).1 ≤ alpha) := by
  intro l
  induction l with
  | nil =>
    intro bs bm
    exact ⟨le_refl bs, fun _ => rfl, fun h => h⟩
  | cons move rest ih =>
    intro bs bm
    obtain ⟨h1, h2, h3⟩ := hrec (G.push b move) alpha bs
    have hstep : minimizingLoop G rec b alpha (move :: rest) bs bs bm
        = if (rec (G.push b move) alpha bs).1 < bs then
            (if min bs (rec (G.push b move) alpha bs).1 ≤ alpha
             then ((rec (G.push b move) alpha bs).1, some move)
             else minimizingLoop G rec b alpha rest
                    (min bs (rec (G.push b move) alpha bs).1)
                    (rec (G.push b move) alpha bs).1 (some move))
          else minimizingLoop G rec b alpha rest bs bs bm := rfl
    have hfold : (move :: rest).foldl (fun x m => min x (val (G.push b m))) bs
        = rest.foldl (fun x m => min x (val (G.push b m)))
            (min bs (val (G.push b move))) := rfl
    rcases lt_or_le (val (G.push b move)) bs with hcb | hbc
    · have hr : (rec (G.push b move) alpha bs).1 = val (G.push b move) := h2 hcb
      have hmin : min bs (val (G.push b move)) = val (G.push b move) :=
        min_eq_right hcb.le
      rw [hstep, hr, if_pos hcb, hmin, hfold, hmin]
      rcases le_or_lt (val (G.push b move)) alpha with hcα | hαc
      · rw [if_pos hcα]
        refine ⟨foldl_min_le _ _ _, ?_, fun _ => hcα⟩
        intro hlt
        exact absurd (lt_of_lt_of_le hlt ((foldl_min_le _ _ _).trans hcα))
          (lt_irrefl alpha)
      · rw [if_neg (not_le.mpr hαc)]
        exact ih (val (G.push b move)) (some move)
    · have hr : bs ≤ (rec (G.push b move) alpha bs).1 := h3 hbc
      have hmin : min bs (val (G.push b move)) = bs := min_eq_left hbc
      rw [hstep, if_neg (not_lt.mpr hr), hfold, hmin]
      exact ih bs bm

/-- Fail-soft soundness of the implemented `minimax` with respect to
brute-force minimax: at a maximizing node the result is exact whenever
the true value is below the supplied `beta`, and otherwise lies between
`beta` and the true value; mirrored at a minimizing node with respect to
the supplied `alpha`.  The supplied `alpha` is irrelevant at maximizing
nodes and the supplied `beta` at minimizing nodes, because the source
resets them on entry. -/
theorem minimax_failSoft (G : Game Pos Move) :
    ∀ (d : ℕ),
      (∀ (b : Pos) (alpha beta : Score),
        (minimax G d b alpha beta true).1 ≤ bruteForce G d b true ∧
        (bruteForce G d b true < beta →
          (minimax G d b alpha beta true).1 = bruteForce G d b true) ∧
        (beta ≤ bruteForce G d b true →
          beta ≤ (minimax G d b alpha beta true).1)) ∧
      (∀ (b : Pos) (alpha beta : Score),
        bruteForce G d b false ≤ (minimax G d b alpha beta false).1 ∧
        (alpha < bruteForce G d b false →
          (minimax G d b alpha beta false).1 = bruteForce G d b false) ∧
        (bruteForce G d b false ≤ alpha →
          (minimax G d b alpha beta false).1 ≤ alpha)) := by
  intro d
  induction d with
  | zero =>
    exact ⟨fun b alpha beta => ⟨le_refl _, fun _ => rfl, fun h => h⟩,
           fun b alpha beta => ⟨le_refl _, fun _ => rfl, fun h => h⟩⟩
  | succ d ih =>
    constructor
    · intro b alpha beta
      rw [minimax_succ, bruteForce_succ]
      unfold minimaxCore bruteForceCore
      cases hover : G.isGameOver b with
      | true => simp only [if_pos rfl]; exact ⟨le_refl _, fun _ => rfl, fun h => h⟩
      | false =>
        simp only [Bool.false_eq_true, if_false, if_pos rfl]
        exact maximizingLoop_failSoft G (fun p a bt => minimax G d p a bt false)
          (fun p => bruteForce G d p false) (fun p a bt => ih.2 p a bt)
          b beta (G.legalMoves b) ⊥ none
    · intro b alpha beta
      rw [minimax_succ, bruteForce_succ]
      unfold minimaxCore bruteForceCore
      cases hover : G.isGameOver b with
      | true => simp only [if_pos rfl]; exact ⟨le_refl _, fun _ => rfl, fun h => h⟩
      | false =>
        simp only [Bool.false_eq_true, if_false]
        exact minimizingLoop_failSoft G (fun p a bt => minimax G d p a bt true)
          (fun p => bruteForce G d p true) (fun p a bt => ih.1 p a bt)
          b alpha (G.legalMoves b) ⊤ none

/-- With the open upper bound `beta = ⊤`, a maximizing `minimax` call
computes the brute-force value exactly, whatever `alpha` it is given. -/
theorem minimax_exact_max (G : Game Pos Move) (d : ℕ) (b : Pos) (alpha : Score) :
    (minimax G d b alpha ⊤ true).1 = bruteForce G d b true := by
  obtain ⟨h1, h2, h3⟩ := (minimax_failSoft G d).1 b alpha ⊤
  rcases (le_top : bruteForce G d b true ≤ ⊤).lt_or_eq with hv | hv
  · exact h2 hv
  · exact le_antisymm h1 (hv ▸ h3 (le_of_eq hv.symm))

theorem bot_lt_sFin (n : ℤ) : (⊥ : Score) < sFin n := WithBot.bot_lt_coe _

theorem sFin_lt_top (n : ℤ) : sFin n < (⊤ : Score) := by
  rw [sFin, ← WithBot.coe_top]
  exact WithBot.coe_lt_coe.mpr (WithTop.coe_lt_top n)

theorem maximizingLoop_cons (G : Game Pos Move)
    (rec : Pos → Score → Score → Score × Option Move) (b : Pos) (beta : Score)
    (move : Move) (rest : List Move) (alpha bs : Score) (bm : Option Move) :
    maximizingLoop G rec b beta (move :: rest) alpha bs bm
      = if bs < (rec (G.push b move) alpha beta).1 then
          (if beta ≤ max alpha (rec (G.push b move) alpha beta).1
           then ((rec (G.push b move) alpha beta).1, some move)
           else maximizingLoop G rec b beta rest
                  (max alpha (rec (G.push b move) alpha beta).1)
                  (rec (G.push b move) alpha beta).1 (some move))
        else maximizingLoop G rec b beta rest alpha bs bm := rfl

theorem minimizingLoop_cons (G : Game Pos Move)
    (rec : Pos → Score → Score → Score × Option Move) (b : Pos) (alpha : Score)
    (move : Move) (rest : List Move) (beta bs : Score) (bm : Option Move) :
    minimizingLoop G rec b alpha (move :: rest) beta bs bm
      = if (rec (G.push b move) alpha beta).1 < bs then
          (if min beta (rec (G.push b move) alpha beta).1 ≤ alpha
           then ((rec (G.push b move) alpha beta).1, some move)
           else minimizingLoop G rec b alpha rest
                  (min beta (rec (G.push b move) alpha beta).1)
                  (rec (G.push b move) alpha beta).1 (some move))
        else minimizingLoop G rec b alpha rest beta bs bm := rfl

/-- The maximizing loop never exceeds `⊤` strictly: if the running best
and every recursive score are below `⊤`, so is the result. -/
theorem maximizingLoop_lt_top (G : Game Pos Move)
    (rec : Pos → Score → Score → Score × Option Move)
    (hrec : ∀ p a bt, (rec p a bt).1 < ⊤) (b : Pos) (beta : Score) :
    ∀ (l : List Move) (alpha bs : Score) (bm : Option Move), bs < ⊤ →
      (maximizingLoop G rec b beta l alpha bs bm).1 < ⊤ := by
  intro l
  induction l with
  | nil => intro alpha bs bm hbs; exact hbs
  | cons move rest ih =>
    intro alpha bs bm hbs
    rw [maximizingLoop_cons]
    split
    · split
      · exact hrec _ _ _
      · exact ih _ _ _ (hrec _ _ _)
    · exact ih _ _ _ hbs

/-- The minimizing loop never reaches `⊥`: mirror of
`maximizingLoop_lt_top`. -/
theorem minimizingLoop_bot_lt (G : Game Pos Move)
    (rec : Pos → Score → Score → Score × Option Move)
    (hrec : ∀ p a bt, ⊥ < (rec p a bt).1) (b : Pos) (alpha : Score) :
    ∀ (l : List Move) (beta bs : Score) (bm : Option Move), ⊥ < bs →
      ⊥ < (minimizingLoop G rec b alpha l beta bs bm).1 := by
  intro l
  induction l with
  | nil => intro beta bs bm hbs; exact hbs
  | cons move rest ih =>
    intro beta bs bm hbs
    rw [minimizingLoop_cons]
    split
    · split
      · exact hrec _ _ _
      · exact ih _ _ _ (hrec _ _ _)
    · exact ih _ _ _ hbs

/-- The running best is a lower bound for the maximizing loop's score. -/
theorem maximizingLoop_le_fst (G : Game Pos Move)
    (rec : Pos → Score → Score → Score × Option Move) (b : Pos) (beta : Score) :
    ∀ (l : List Move) (alpha bs : Score) (bm : Option Move),
      bs ≤ (maximizingLoop G rec b beta l alpha bs bm).1 := by
  intro l
  induction l with
  | nil => intro alpha bs bm; exact le_refl bs
  | cons move rest ih =>
    intro alpha bs bm
    rw [maximizingLoop_cons]
    split
    · rename_i hlt
      split
      · exact hlt.le
      · exact hlt.le.trans (ih _ _ _)
    · exact ih _ _ _

/-- The running best is an upper bound for the minimizing loop's score. -/
theorem minimizingLoop_fst_le (G : Game Pos Move)
    (rec : Pos → Score → Score → Score × Option Move) (b : Pos) (alpha : Score) :
    ∀ (l : List Move) (beta bs : Score) (bm : Option Move),
      (minimizingLoop G rec b alpha l beta bs bm).1 ≤ bs := by
  intro l
  induction l with
  | nil => intro beta bs bm; exact le_refl bs
  | cons move rest ih =>
    intro beta bs bm
    rw [minimizingLoop_cons]
    split
    · rename_i hlt
      split
      · exact hlt.le
      · exact (ih _ _ _).trans hlt.le
    · exact ih _ _ _

/-- Once the maximizing loop holds an incumbent move, it returns one. -/
theorem maximizingLoop_some (G : Game Pos Move)
    (rec : Pos → Score → Score → Score × Option Move) (b : Pos) (beta : Score) :
    ∀ (l : List Move) (alpha bs : Score) (m₀ : Move),
      ∃ m, (maximizingLoop G rec b beta l alpha bs (some m₀)).2 = some m := by
  intro l
  induction l with
  | nil => intro alpha bs m₀; exact ⟨m₀, rfl⟩
  | cons move rest ih =>
    intro alpha bs m₀
    rw [maximizingLoop_cons]
    split
    · split
      · exact ⟨move, rfl⟩
      · exact ih _ _ move
    · exact ih _ _ m₀

/-- Once the minimizing loop holds an incumbent move, it returns one. -/
theorem minimizingLoop_some (G : Game Pos Move)
    (rec : Pos → Score → Score → Score × Option Move) (b : Pos) (alpha : Score) :
    ∀ (l : List Move) (beta bs : Score) (m₀ : Move),
      ∃ m, (minimizingLoop G rec b alpha l beta bs (some m₀)).2 = some m := by
  intro l
  induction l with
  | nil => intro beta bs m₀; exact ⟨m₀, rfl⟩
  | cons move rest ih =>
    intro beta bs m₀
    rw [minimizingLoop_cons]
    split
    · split
      · exact ⟨move, rfl⟩
      · exact ih _ _ move
    · exact ih _ _ m₀

/-- In a game where running out of legal moves means the game is over
(true of chess: stalemate and checkmate are terminal), every `minimax`
score is strictly between the two sentinels. -/
theorem minimax_bounds (G : Game Pos Move)
    (hm : ∀ p, G.legalMoves p = [] → G.isGameOver p = true) :
    ∀ (d : ℕ) (b : Pos) (alpha beta : Score),
      (⊥ < (minimax G d b alpha beta true).1 ∧
        (minimax G d b alpha beta true).1 < ⊤) ∧
      (⊥ < (minimax G d b alpha beta false).1 ∧
        (minimax G d b alpha beta false).1 < ⊤) := by
  intro d
  induction d with
  | zero =>
    intro b alpha beta
    exact ⟨⟨bot_lt_sFin _, sFin_lt_top _⟩, ⟨bot_lt_sFin _, sFin_lt_top _⟩⟩
  | succ d ih =>
    intro b alpha beta
    rw [minimax_succ, minimax_succ]
    unfold minimaxCore
    cases hover : G.isGameOver b with
    | true =>
      simp only [if_pos rfl]
      exact ⟨⟨bot_lt_sFin _, sFin_lt_top _⟩, ⟨bot_lt_sFin _, sFin_lt_top _⟩⟩
    | false =>
      simp only [Bool.false_eq_true, if_false, if_pos rfl]
      cases hl : G.legalMoves b with
      | nil =>
        rw [hm b hl] at hover
        exact absurd hover (by simp)
      | cons move rest =>
        constructor
        · constructor
          · rw [maximizingLoop_cons]
            have hfst := (ih (G.push b move) ⊥ beta).2.1
            rw [if_pos hfst]
            rcases le_or_lt beta
                (max ⊥ (minimax G d (G.push b move) ⊥ beta false).1) with hc | hc
            · rw [if_pos hc]; exact hfst
            · rw [if_neg (not_le.mpr hc)]
              exact lt_of_lt_of_le hfst (maximizingLoop_le_fst _ _ _ _ _ _ _ _)
          · exact maximizingLoop_lt_top G _ (fun p a bt => (ih p a bt).2.2) b beta
              (move :: rest) ⊥ ⊥ none bot_lt_top
        · constructor
          · exact minimizingLoop_bot_lt G _ (fun p a bt => (ih p a bt).1.1) b alpha
              (move :: rest) ⊤ ⊤ none (by exact bot_lt_top)
          · rw [minimizingLoop_cons]
            have hfst := (ih (G.push b move) alpha ⊤).1.2
            rw [if_pos hfst]
            rcases le_or_lt
                (min ⊤ (minimax G d (G.push b move) alpha ⊤ true).1) alpha with hc | hc
            · rw [if_pos hc]; exact hfst
            · rw [if_neg (not_le.mpr hc)]
              exact lt_of_le_of_lt (minimizingLoop_fst_le _ _ _ _ _ _ _ _) hfst

/-- In a game where running out of legal moves means the game is over,
`minimax` returns no move only at a base case (depth 0 or terminal
position), and its score there is the static evaluation of the input
position itself. -/
theorem minimax_none_eval (G : Game Pos Move)
    (hm : ∀ p, G.legalMoves p = [] → G.isGameOver p = true)
    (d : ℕ) (b : Pos) (alpha beta : Score) (maximizing : Bool)
    (hnone : (minimax G d b alpha beta maximizing).2 = none) :
    (minimax G d b alpha beta maximizing).1 = sFin (G.evaluate b) := by
  cases d with
  | zero => rfl
  | succ d =>
    rw [minimax_succ] at hnone ⊢
    unfold minimaxCore at hnone ⊢
    cases hover : G.isGameOver b with
    | true => simp
    | false =>
      rw [hover] at hnone
      simp only [Bool.false_eq_true, if_false] at hnone ⊢
      cases hl : G.legalMoves b with
      | nil => rw [hm b hl] at hover; exact absurd hover (by simp)
      | cons move rest =>
        rw [hl] at hnone
        exfalso
        cases maximizing with
        | true =>
          rw [if_pos rfl] at hnone
          rw [maximizingLoop_cons] at hnone
          have hfst := (minimax_bounds G hm d (G.push b move) ⊥ beta).2.1
          rw [if_pos hfst] at hnone
          rcases le_or_lt beta
              (max ⊥ (minimax G d (G.push b move) ⊥ beta false).1) with hc | hc
          · rw [if_pos hc] at hnone
            exact Option.some_ne_none move hnone
          · rw [if_neg (not_le.mpr hc)] at hnone
            obtain ⟨m, hsome⟩ := maximizingLoop_some G
              (fun p a bt => minimax G d p a bt false) b beta rest
              (max ⊥ (minimax G d (G.push b move) ⊥ beta false).1)
              (minimax G d (G.push b move) ⊥ beta false).1 move
            rw [hsome] at hnone
            exact Option.some_ne_none m hnone
        | false =>
          rw [if_neg (by simp : ¬ (false = true))] at hnone
          rw [minimizingLoop_cons] at hnone
          have hfst := (minimax_bounds G hm d (G.push b move) alpha ⊤).1.2
          rw [if_pos hfst] at hnone
          rcases le_or_lt
              (min ⊤ (minimax G d (G.push b move) alpha ⊤ true).1) alpha with hc | hc
          · rw [if_pos hc] at hnone
            exact Option.some_ne_none move hnone
          · rw [if_neg (not_le.mpr hc)] at hnone
            obtain ⟨m, hsome⟩ := minimizingLoop_some G
              (fun p a bt => minimax G d p a bt true) b alpha rest
              (min ⊤ (minimax G d (G.push b move) alpha ⊤ true).1)
              (minimax G d (G.push b move) alpha ⊤ true).1 move
            rw [hsome] at hnone
            exact Option.some_ne_none m hnone

/-- **C1** (counterexample): the claim that the score returned through
`find_best_move` always equals the brute-force minimax score fails
already at depth 1 when white is to move: in `Gex` the search returns
the first child's score 5, while brute-force minimax of the minimizing
root is 3. -/
theorem claim1_counterexample :
    ¬ ((find_best_move Gex [] 1).1 = bruteForce Gex 1 [] (Gex.turnIsBlack [])) := by
  decide

/-- **C1** (amended): when black — the maximizing side — is to move and
the position is not checkmate, the score `find_best_move` returns at any
depth equals the brute-force minimax score of the same depth with the
same evaluator and move order.  (When white is to move the claim fails:
the inverted initial window makes the root stop at its first improving
move, see `claim1_counterexample`.) -/
theorem claim1_pruning_equiv_black (G : Game Pos Move) (b : Pos) (d : ℕ)
    (hb : G.turnIsBlack b = true) (hcm : G.isCheckmate b = false) :
    (find_best_move G b d).1 = bruteForce G d b true := by
  have hwnd : searchWindow G b = (true, ⊥, ⊤) := by
    rw [searchWindow, if_pos hb]
  have hexact := minimax_exact_max G d b ⊥
  simp only [find_best_move, hwnd]
  cases hr2 : (minimax G d b ⊥ ⊤ true).2 with
  | none => simp only [hcm, Bool.false_eq_true, if_false]; exact hexact
  | some m => exact hexact

theorem claim1_witness :
    Gex.turnIsBlack [true] = true ∧ Gex.isCheckmate [true] = false ∧
    (find_best_move Gex [true] 2).1 = bruteForce Gex 2 [true] true :=
  ⟨rfl, rfl, claim1_pruning_equiv_black Gex [true] 2 rfl rfl⟩

/-- **C2** (counterexample): the initial window `find_best_move` passes
to the search does not satisfy `alpha ≤ beta` when white is to move: the
source sets `alpha = INFINITY`, `beta = -INFINITY` there. -/
theorem claim2_counterexample :
    ¬ ((searchWindow Gex []).2.1 ≤ (searchWindow Gex []).2.2) := by
  decide

/-- **C2** (amended): on black's turn `find_best_move` seeds the search
with the valid window `alpha = -∞ ≤ beta = +∞`; on white's turn it seeds
the inverted values `alpha = +∞`, `beta = -∞`, so there `beta < alpha`
and the window is not valid. -/
theorem claim2_window (G : Game Pos Move) (b : Pos) :
    (G.turnIsBlack b = true →
      (searchWindow G b).2.1 ≤ (searchWindow G b).2.2) ∧
    (G.turnIsBlack b = false →
      (searchWindow G b).2.2 < (searchWindow G b).2.1) := by
  constructor
  · intro h
    rw [searchWindow, if_pos h]
    exact bot_le
  · intro h
    rw [searchWindow, if_neg (by rw [h]; exact Bool.false_ne_true)]
    exact bot_lt_top

theorem claim2_witness :
    (searchWindow Gex [true]).2.1 ≤ (searchWindow Gex [true]).2.2 :=
  (claim2_window Gex [true]).1 rfl

/-- **C3**: in a game where having no legal move implies the game is
over (as in chess), whenever white — the non-maximizing side — is to
move in a non-terminal position and the depth is at least 1,
`find_best_move` returns the first move of the legal-move enumeration:
the inverted seed window makes the first strict improvement trigger the
`alpha >= beta` cutoff immediately. -/
theorem claim3_white_first_move (G : Game Pos Move)
    (hm : ∀ p, G.legalMoves p = [] → G.isGameOver p = true)
    (b : Pos) (d : ℕ)
    (hw : G.turnIsBlack b = false) (hover : G.isGameOver b = false) :
    (find_best_move G b (d + 1)).2 = (G.legalMoves b).head? := by
  have hwnd : searchWindow G b = (false, ⊤, ⊥) := by
    rw [searchWindow, if_neg (by rw [hw]; exact Bool.false_ne_true)]
  cases hl : G.legalMoves b with
  | nil => rw [hm b hl] at hover; exact absurd hover (by simp)
  | cons move rest =>
    have hfst := (minimax_bounds G hm d (G.push b move) ⊤ ⊤).1.2
    have hr : minimax G (d + 1) b ⊤ ⊥ false
        = ((minimax G d (G.push b move) ⊤ ⊤ true).1, some move) := by
      rw [minimax_succ]
      unfold minimaxCore
      rw [hover]
      simp only [Bool.false_eq_true, if_false]
      rw [hl, minimizingLoop_cons, if_pos hfst, if_pos le_top]
    simp only [find_best_move, hwnd, hr, hl]
    rfl

theorem claim3_witness :
    (find_best_move Gex [] 1).2 = (Gex.legalMoves []).head? :=
  claim3_white_first_move Gex (fun _ h => nomatch h) [] 0 rfl rfl

/-- **C5**: whenever the search comes back with no move, `find_best_move`
behaves as the claim states: if the position is checkmate it overrides
the score with `-∞` when white (the non-maximizing side) is to move and
`+∞` when black is, returning no move; otherwise (stalemate/draw) it
returns the search's score — which is `evaluate` of the position itself —
unmodified with no move, and this is an ordinary return, not an error. -/
theorem claim5_no_move_handling (G : Game Pos Move)
    (hm : ∀ p, G.legalMoves p = [] → G.isGameOver p = true)
    (b : Pos) (d : ℕ)
    (hnone : (minimax G d b (searchWindow G b).2.1 (searchWindow G b).2.2
        (searchWindow G b).1).2 = none) :
    find_best_move G b d
      = (if G.isCheckmate b
         then (if G.turnIsBlack b then (⊤ : Score) else ⊥)
         else sFin (G.evaluate b), none) := by
  have heval := minimax_none_eval G hm d b _ _ _ hnone
  simp only [find_best_move, hnone]
  cases hc : G.isCheckmate b with
  | true =>
    simp only [if_pos rfl]
    cases hb : G.turnIsBlack b with
    | true => simp
    | false => simp
  | false =>
    simp only [Bool.false_eq_true, if_false]
    exact Prod.ext_iff.mpr ⟨heval, hnone⟩

theorem claim5_witness :
    find_best_move Gstale () 2 = (sFin 7, none) :=
  (claim5_no_move_handling Gstale (fun _ _ => rfl) () 2 rfl).trans (by decide)

/-- **C9**: at depth 0 the search returns exactly
`(evaluate_board(board), None)` for any position and any window, and the
same holds at every depth when the position is terminal. -/
theorem claim9_base_case (G : Game Pos Move) (b : Pos) (alpha beta : Score)
    (maximizing : Bool) :
    minimax G 0 b alpha beta maximizing = (sFin (G.evaluate b), none) ∧
    (∀ d : ℕ, G.isGameOver b = true →
      minimax G d b alpha beta maximizing = (sFin (G.evaluate b), none)) := by
  refine ⟨rfl, ?_⟩
  intro d hover
  cases d with
  | zero => rfl
  | succ d =>
    rw [minimax_succ]
    unfold minimaxCore
    rw [hover]
    simp

theorem claim9_witness :
    minimax Gstale 0 () ⊥ ⊤ true = (sFin 7, none) ∧
    minimax Gstale 3 () ⊥ ⊤ true = (sFin 7, none) :=
  ⟨(claim9_base_case Gstale () ⊥ ⊤ true).1,
   (claim9_base_case Gstale () ⊥ ⊤ true).2 3 rfl⟩

/-- Variant of the search following the claim's (and spec's) words for
the window updates: the maximizing loop starts from the *caller's*
`alpha` (so its running alpha is `max(caller's alpha, best score so
far)`), and the minimizing loop starts from the caller's `beta`.
Everything else is identical to `minimax`. -/
def minimaxSpecWindowCore (G : Game Pos Move)
    (rec : Pos → Score → Score → Bool → Score × Option Move)
    (b : Pos) (alpha beta : Score) (maximizing : Bool) : Score × Option Move :=
  if G.isGameOver b then (sFin (G.evaluate b), none)
  else if maximizing then
    maximizingLoop G (fun p a bt => rec p a bt false) b beta (G.legalMoves b) alpha ⊥ none
  else
    minimizingLoop G (fun p a bt => rec p a bt true) b alpha (G.legalMoves b) beta ⊤ none

/-- The search as the claim describes it (caller's alpha kept). -/
def minimaxSpecWindow (G : Game Pos Move) :
    ℕ → Pos → Score → Score → Bool → Score × Option Move
  | 0 => fun b _ _ _ => (sFin (G.evaluate b), none)
  | d + 1 => minimaxSpecWindowCore G (minimaxSpecWindow G d)

/-- Variant of the search in which the maximizing loop carries no alpha
variable at all: the best score so far is used as the alpha bound for
the cutoff test and for the recursive calls; mirrored for beta in the
minimizing loop. -/
def maximizingLoopB (G : Game Pos Move)
    (rec : Pos → Score → Score → Score × Option Move)
    (b : Pos) (beta : Score) :
    List Move → Score → Option Move → Score × Option Move
  | [], best_score, best_move => (best_score, best_move)
  | move :: rest, best_score, best_move =>
    let score := (rec (G.push b move) best_score beta).1
    if best_score < score then
      if beta ≤ score then (score, some move)
      else maximizingLoopB G rec b beta rest score (some move)
    else maximizingLoopB G rec b beta rest best_score best_move

/-- Mirror of `maximizingLoopB` for the minimizing branch. -/
def minimizingLoopB (G : Game Pos Move)
    (rec : Pos → Score → Score → Score × Option Move)
    (b : Pos) (alpha : Score) :
    List Move → Score → Option Move → Score × Option Move
  | [], best_score, best_move => (best_score, best_move)
  | move :: rest, best_score, best_move =>
    let score := (rec (G.push b move) alpha best_score).1
    if score < best_score then
      if score ≤ alpha then (score, some move)
      else minimizingLoopB G rec b alpha rest score (some move)
    else minimizingLoopB G rec b alpha rest best_score best_move

/-- `minimax` with the alpha/beta loop variables replaced by the running
best score. -/
def minimaxBCore (G : Game Pos Move)
    (rec : Pos → Score → Score → Bool → Score × Option Move)
    (b : Pos) (alpha beta : Score) (maximizing : Bool) : Score × Option Move :=
  if G.isGameOver b then (sFin (G.evaluate b), none)
  else if maximizing then
    maximizingLoopB G (fun p a bt => rec p a bt false) b beta (G.legalMoves b) ⊥ none
  else
    minimizingLoopB G (fun p a bt => rec p a bt true) b alpha (G.legalMoves b) ⊤ none

/-- `minimax` with the alpha (resp. beta) loop variable eliminated in
favour of the running best score. -/
def minimaxB (G : Game Pos Move) :
    ℕ → Pos → Score → Score → Bool → Score × Option Move
  | 0 => fun b _ _ _ => (sFin (G.evaluate b), none)
  | d + 1 => minimaxBCore G (minimaxB G d)

theorem maximizingLoopB_cons (G : Game Pos Move)
    (rec : Pos → Score → Score → Score × Option Move) (b : Pos) (beta : Score)
    (move : Move) (rest : List Move) (bs : Score) (bm : Option Move) :
    maximizingLoopB G rec b beta (move :: rest) bs bm
      = if bs < (rec (G.push b move) bs beta).1 then
          (if beta ≤ (rec (G.push b move) bs beta).1
           then ((rec (G.push b move) bs beta).1, some move)
           else maximizingLoopB G rec b beta rest
                  (rec (G.push b move) bs beta).1 (some move))
        else maximizingLoopB G rec b beta rest bs bm := rfl

theorem minimizingLoopB_cons (G : Game Pos Move)
    (rec : Pos → Score → Score → Score × Option Move) (b : Pos) (alpha : Score)
    (move : Move) (rest : List Move) (bs : Score) (bm : Option Move) :
    minimizingLoopB G rec b alpha (move :: rest) bs bm
      = if (rec (G.push b move) alpha bs).1 < bs then
          (if (rec (G.push b move) alpha bs).1 ≤ alpha
           then ((rec (G.push b move) alpha bs).1, some move)
           else minimizingLoopB G rec b alpha rest
                  (rec (G.push b move) alpha bs).1 (some move))
        else minimizingLoopB G rec b alpha rest bs bm := rfl

/-- Entered with `alpha = best_score` (as `minimax` does after the
reset), the maximizing loop's alpha variable always equals the running
best score, so the loop coincides with `maximizingLoopB`. -/
theorem maximizingLoop_eq_B (G : Game Pos Move)
    (rec : Pos → Score → Score → Score × Option Move) (b : Pos) (beta : Score) :
    ∀ (l : List Move) (bs : Score) (bm : Option Move),
      maximizingLoop G rec b beta l bs bs bm = maximizingLoopB G rec b beta l bs bm := by
  intro l
  induction l with
  | nil => intro bs bm; rfl
  | cons move rest ih =>
    intro bs bm
    rw [maximizingLoop_cons, maximizingLoopB_cons]
    rcases lt_or_le bs ((rec (G.push b move) bs beta).1) with h | h
    · have hmax : max bs ((rec (G.push b move) bs beta).1)
          = (rec (G.push b move) bs beta).1 := max_eq_right h.le
      rw [if_pos h, if_pos h, hmax]
      rcases le_or_lt beta ((rec (G.push b move) bs beta).1) with h2 | h2
      · rw [if_pos h2, if_pos h2]
      · rw [if_neg (not_le.mpr h2), if_neg (not_le.mpr h2)]
        exact ih _ _
    · rw [if_neg (not_lt.mpr h), if_neg (not_lt.mpr h)]
      exact ih _ _

/-- Mirror of `maximizingLoop_eq_B`. -/
theorem minimizingLoop_eq_B (G : Game Pos Move)
    (rec : Pos → Score → Score → Score × Option Move) (b : Pos) (alpha : Score) :
    ∀ (l : List Move) (bs : Score) (bm : Option Move),
      minimizingLoop G rec b alpha l bs bs bm = minimizingLoopB G rec b alpha l bs bm := by
  intro l
  induction l with
  | nil => intro bs bm; rfl
  | cons move rest ih =>
    intro bs bm
    rw [minimizingLoop_cons, minimizingLoopB_cons]
    rcases lt_or_le ((rec (G.push b move) alpha bs).1) bs with h | h
    · have hmin : min bs ((rec (G.push b move) alpha bs).1)
          = (rec (G.push b move) alpha bs).1 := min_eq_right h.le
      rw [if_pos h, if_pos h, hmin]
      rcases le_or_lt ((rec (G.push b move) alpha bs).1) alpha with h2 | h2
      · rw [if_pos h2, if_pos h2]
      · rw [if_neg (not_le.mpr h2), if_neg (not_le.mpr h2)]
        exact ih _ _
    · rw [if_neg (not_lt.mpr h), if_neg (not_lt.mpr h)]
      exact ih _ _

/-- **C4** (counterexample): the claim that the alpha bound used by a
maximizing call equals `max(caller's alpha, best score so far)` is
refuted by observation: on `Gc4` at depth 1 with window
`(alpha, beta) = (10, 10)`, the implemented search (which resets alpha
to `-∞` on entry) returns `(20, true)`, while the search that keeps the
caller's alpha — `minimaxSpecWindow`, the claim's reading — cuts off
after the first move and returns `(5, false)`. -/
theorem claim4_counterexample :
    minimax Gc4 1 [] (sFin 10) (sFin 10) true
      ≠ minimaxSpecWindow Gc4 1 [] (sFin 10) (sFin 10) true := by
  decide

/-- **C4** (amended): the source discards the caller's alpha on entry to
the maximizing branch (reset to `-∞`, line 75), so the alpha bound used
for the cutoff test and passed to recursive calls equals just the best
score found so far in this call; mirrored for beta (reset to `+∞`,
line 87) when minimizing.  Formally, `minimax` coincides with the
variant `minimaxB` in which the alpha/beta loop variables are replaced
by the running best score. -/
theorem claim4_alpha_is_best (G : Game Pos Move) :
    ∀ (d : ℕ) (b : Pos) (alpha beta : Score) (maximizing : Bool),
      minimax G d b alpha beta maximizing = minimaxB G d b alpha beta maximizing := by
  intro d
  induction d with
  | zero => intro b alpha beta maximizing; rfl
  | succ d ih =>
    intro b alpha beta maximizing
    have hfunF : (fun p a bt => minimax G d p a bt false)
        = (fun p a bt => minimaxB G d p a bt false) := by
      funext p a bt; exact ih p a bt false
    have hfunT : (fun p a bt => minimax G d p a bt true)
        = (fun p a bt => minimaxB G d p a bt true) := by
      funext p a bt; exact ih p a bt true
    show minimaxCore G (minimax G d) b alpha beta maximizing
        = minimaxBCore G (minimaxB G d) b alpha beta maximizing
    unfold minimaxCore minimaxBCore
    cases hover : G.isGameOver b with
    | true => simp
    | false =>
      simp only [hover, Bool.false_eq_true, if_false]
      cases maximizing with
      | true =>
        simp only [if_pos rfl]
        rw [maximizingLoop_eq_B, hfunF]
        simp
      | false =>
        simp only [Bool.false_eq_true, if_false]
        rw [minimizingLoop_eq_B, hfunT]

/-- **C10**: a move whose recursive score merely ties the incumbent best
score does not replace it — in both the maximizing and the minimizing
loop, processing such a move leaves the loop state unchanged, so the
first move achieving a score is kept and, the search being a pure
function of the move-enumeration order, its output is deterministic. -/
theorem claim10_tie_keeps_incumbent (G : Game Pos Move)
    (rec : Pos → Score → Score → Score × Option Move)
    (b : Pos) (alpha beta bs : Score) (bm : Option Move)
    (move : Move) (rest : List Move)
    (htie : (rec (G.push b move) alpha beta).1 = bs) :
    maximizingLoop G rec b beta (move :: rest) alpha bs bm
      = maximizingLoop G rec b beta rest alpha bs bm ∧
    minimizingLoop G rec b alpha (move :: rest) beta bs bm
      = minimizingLoop G rec b alpha rest beta bs bm := by
  constructor
  · rw [maximizingLoop_cons, htie, if_neg (lt_irrefl bs)]
  · rw [minimizingLoop_cons, htie, if_neg (lt_irrefl bs)]

theorem claim10_witness :
    (maximizingLoop Gex (fun _ _ _ => (sFin 0, none)) [] ⊤ [false] ⊥ (sFin 0) none
      = maximizingLoop Gex (fun _ _ _ => (sFin 0, none)) [] ⊤ [] ⊥ (sFin 0) none) ∧
    (minimizingLoop Gex (fun _ _ _ => (sFin 0, none)) [] ⊥ [false] ⊤ (sFin 0) none
      = minimizingLoop Gex (fun _ _ _ => (sFin 0, none)) [] ⊥ [] ⊤ (sFin 0) none) :=
  claim10_tie_keeps_incumbent Gex (fun _ _ _ => (sFin 0, none)) [] ⊥ ⊤ (sFin 0)
    none false [] rfl

/-- State-threaded maximizing loop: the explicit model of the board
mutation in `main.py` lines 76-85.  Each iteration pushes the move onto
the current board, recurses on the mutated board, pops the board the
recursion returns, and continues on the popped board. -/
def maximizingLoopSt (G : Game Pos Move)
    (rec : Pos → Score → Score → (Score × Option Move) × Pos) (beta : Score) :
    List Move → Pos → Score → Score → Option Move → (Score × Option Move) × Pos
  | [], b, _alpha, best_score, best_move => ((best_score, best_move), b)
  | move :: rest, b, alpha, best_score, best_move =>
    let r := rec (G.push b move) alpha beta
    let b2 := G.pop r.2
    if best_score < r.1.1 then
      if beta ≤ max alpha r.1.1 then ((r.1.1, some move), b2)
      else maximizingLoopSt G rec beta rest b2 (max alpha r.1.1) r.1.1 (some move)
    else maximizingLoopSt G rec beta rest b2 alpha best_score best_move

/-- State-threaded minimizing loop (`main.py` lines 88-97). -/
def minimizingLoopSt (G : Game Pos Move)
    (rec : Pos → Score → Score → (Score × Option Move) × Pos) (alpha : Score) :
    List Move → Pos → Score → Score → Option Move → (Score × Option Move) × Pos
  | [], b, _beta, best_score, best_move => ((best_score, best_move), b)
  | move :: rest, b, beta, best_score, best_move =>
    let r := rec (G.push b move) alpha beta
    let b2 := G.pop r.2
    if r.1.1 < best_score then
      if min beta r.1.1 ≤ alpha then ((r.1.1, some move), b2)
      else minimizingLoopSt G rec alpha rest b2 (min beta r.1.1) r.1.1 (some move)
    else minimizingLoopSt G rec alpha rest b2 beta best_score best_move

/-- One positive-depth unfolding of the state-threaded `minimax`. -/
def minimaxStCore (G : Game Pos Move)
    (rec : Pos → Score → Score → Bool → (Score × Option Move) × Pos)
    (b : Pos) (alpha beta : Score) (maximizing : Bool) :
    (Score × Option Move) × Pos :=
  if G.isGameOver b then ((sFin (G.evaluate b), none), b)
  else if maximizing then
    maximizingLoopSt G (fun p a bt => rec p a bt false) beta (G.legalMoves b) b ⊥ ⊥ none
  else
    minimizingLoopSt G (fun p a bt => rec p a bt true) alpha (G.legalMoves b) b ⊤ ⊤ none

/-- `minimax` with the board state threaded through the computation:
the second component is the board as it stands when the call exits. -/
def minimaxSt (G : Game Pos Move) :
    ℕ → Pos → Score → Score → Bool → (Score × Option Move) × Pos
  | 0 => fun b _ _ _ => ((sFin (G.evaluate b), none), b)
  | d + 1 => minimaxStCore G (minimaxSt G d)

theorem maximizingLoopSt_cons (G : Game Pos Move)
    (rec : Pos → Score → Score → (Score × Option Move) × Pos) (beta : Score)
    (move : Move) (rest : List Move) (b : Pos) (alpha bs : Score) (bm : Option Move) :
    maximizingLoopSt G rec beta (move :: rest) b alpha bs bm
      = if bs < (rec (G.push b move) alpha beta).1.1 then
          (if beta ≤ max alpha (rec (G.push b move) alpha beta).1.1
           then (((rec (G.push b move) alpha beta).1.1, some move),
                 G.pop (rec (G.push b move) alpha beta).2)
           else maximizingLoopSt G rec beta rest
                  (G.pop (rec (G.push b move) alpha beta).2)
                  (max alpha (rec (G.push b move) alpha beta).1.1)
                  (rec (G.push b move) alpha beta).1.1 (some move))
        else maximizingLoopSt G rec beta rest
               (G.pop (rec (G.push b move) alpha beta).2) alpha bs bm := rfl

theorem minimizingLoopSt_cons (G : Game Pos Move)
    (rec : Pos → Score → Score → (Score × Option Move) × Pos) (alpha : Score)
    (move : Move) (rest : List Move) (b : Pos) (beta bs : Score) (bm : Option Move) :
    minimizingLoopSt G rec alpha (move :: rest) b beta bs bm
      = if (rec (G.push b move) alpha beta).1.1 < bs then
          (if min beta (rec (G.push b move) alpha beta).1.1 ≤ alpha
           then (((rec (G.push b move) alpha beta).1.1, some move),
                 G.pop (rec (G.push b move) alpha beta).2)
           else minimizingLoopSt G rec alpha rest
                  (G.pop (rec (G.push b move) alpha beta).2)
                  (min beta (rec (G.push b move) alpha beta).1.1)
                  (rec (G.push b move) alpha beta).1.1 (some move))
        else minimizingLoopSt G rec alpha rest
               (G.pop (rec (G.push b move) alpha beta).2) beta bs bm := rfl

/-- If undoing a push restores the board and every recursive call leaves
its input board unchanged, the state-threaded maximizing loop computes
the pure loop's result and hands back the board it was given. -/
theorem maximizingLoopSt_eq (G : Game Pos Move)
    (rec : Pos → Score → Score → Score × Option Move)
    (recSt : Pos → Score → Score → (Score × Option Move) × Pos)
    (beta : Score)
    (hrec : ∀ p a bt, recSt p a bt = (rec p a bt, p))
    (hpp : ∀ b m, G.pop (G.push b m) = b) :
    ∀ (l : List Move) (b : Pos) (alpha bs : Score) (bm : Option Move),
      maximizingLoopSt G recSt beta l b alpha bs bm
        = (maximizingLoop G rec b beta l alpha bs bm, b) := by
  intro l
  induction l with
  | nil => intro b alpha bs bm; rfl
  | cons move rest ih =>
    intro b alpha bs bm
    rw [maximizingLoopSt_cons, maximizingLoop_cons]
    simp only [hrec, hpp]
    rcases lt_or_le bs ((rec (G.push b move) alpha beta).1) with h | h
    · rw [if_pos h, if_pos h]
      rcases le_or_lt beta (max alpha ((rec (G.push b move) alpha beta).1)) with h2 | h2
      · rw [if_pos h2, if_pos h2]
      · rw [if_neg (not_le.mpr h2), if_neg (not_le.mpr h2)]
        exact ih b _ _ _
    · rw [if_neg (not_lt.mpr h), if_neg (not_lt.mpr h)]
      exact ih b alpha bs bm

/-- Mirror of `maximizingLoopSt_eq`. -/
theorem minimizingLoopSt_eq (G : Game Pos Move)
    (rec : Pos → Score → Score → Score × Option Move)
    (recSt : Pos → Score → Score → (Score × Option Move) × Pos)
    (alpha : Score)
    (hrec : ∀ p a bt, recSt p a bt = (rec p a bt, p))
    (hpp : ∀ b m, G.pop (G.push b m) = b) :
    ∀ (l : List Move) (b : Pos) (beta bs : Score) (bm : Option Move),
      minimizingLoopSt G recSt alpha l b beta bs bm
        = (minimizingLoop G rec b alpha l beta bs bm, b) := by
  intro l
  induction l with
  | nil => intro b beta bs bm; rfl
  | cons move rest ih =>
    intro b beta bs bm
    rw [minimizingLoopSt_cons, minimizingLoop_cons]
    simp only [hrec, hpp]
    rcases lt_or_le ((rec (G.push b move) alpha beta).1) bs with h | h
    · rw [if_pos h, if_pos h]
      rcases le_or_lt (min beta ((rec (G.push b move) alpha beta).1)) alpha with h2 | h2
      · rw [if_pos h2, if_pos h2]
      · rw [if_neg (not_le.mpr h2), if_neg (not_le.mpr h2)]
        exact ih b _ _ _
    · rw [if_neg (not_lt.mpr h), if_neg (not_lt.mpr h)]
      exact ih b beta bs bm

/-- When undoing a push restores the board (the rules-engine contract),
the state-threaded search computes the pure search's result and returns
the board exactly as it received it. -/
theorem minimaxSt_eq (G : Game Pos Move)
    (hpp : ∀ b m, G.pop (G.push b m) = b) :
    ∀ (d : ℕ) (b : Pos) (alpha beta : Score) (maximizing : Bool),
      minimaxSt G d b alpha beta maximizing
        = (minimax G d b alpha beta maximizing, b) := by
  intro d
  induction d with
  | zero => intro b alpha beta maximizing; rfl
  | succ d ih =>
    intro b alpha beta maximizing
    show minimaxStCore G (minimaxSt G d) b alpha beta maximizing
        = (minimaxCore G (minimax G d) b alpha beta maximizing, b)
    unfold minimaxStCore minimaxCore
    cases hover : G.isGameOver b with
    | true => simp
    | false =>
      simp only [hover, Bool.false_eq_true, if_false]
      cases maximizing with
      | true =>
        simp only [if_pos rfl]
        exact maximizingLoopSt_eq G (fun p a bt => minimax G d p a bt false)
          (fun p a bt => minimaxSt G d p a bt false) beta
          (fun p a bt => ih p a bt false) hpp (G.legalMoves b) b ⊥ ⊥ none
      | false =>
        simp only [Bool.false_eq_true, if_false]
        exact minimizingLoopSt_eq G (fun p a bt => minimax G d p a bt true)
          (fun p a bt => minimaxSt G d p a bt true) alpha
          (fun p a bt => ih p a bt true) hpp (G.legalMoves b) b ⊤ ⊤ none

/-- **C6**: provided undoing a push restores the board — the contract of
the rules engine's move stack — the search leaves the input position
exactly as it was, for every depth, window and side, and on every exit
path (base case, completed loop, or pruning break): the board returned
by the state-threaded search is the input board. -/
theorem claim6_undo_integrity (G : Game Pos Move)
    (hpp : ∀ b m, G.pop (G.push b m) = b)
    (d : ℕ) (b : Pos) (alpha beta : Score) (maximizing : Bool) :
    (minimaxSt G d b alpha beta maximizing).2 = b := by
  rw [minimaxSt_eq G hpp d b alpha beta maximizing]

theorem claim6_witness :
    (minimaxSt Gex 2 [] ⊥ ⊤ true).2 = [] :=
  claim6_undo_integrity Gex (fun _ _ => rfl) 2 [] ⊥ ⊤ true

/-- The six chess piece kinds, in the order of
`chess.PIECE_TYPES = [PAWN, KNIGHT, BISHOP, ROOK, QUEEN, KING]`. -/
inductive PieceType where
  | pawn
  | knight
  | bishop
  | rook
  | queen
  | king
deriving DecidableEq

/-- The `piece_value` table of `main.py` lines 6-13. -/
def piece_value : PieceType → ℤ
  | .pawn => 1
  | .knight => 3
  | .bishop => 3
  | .rook => 5
  | .queen => 9
  | .king => 0

/-- `chess.PIECE_TYPES` in its enumeration order. -/
def PIECE_TYPES : List PieceType :=
  [.pawn, .knight, .bishop, .rook, .queen, .king]

/-- A piece: its owner (`true` = `chess.WHITE`, as in `python-chess`)
and its kind. -/
structure Piece where
  color : Bool
  ptype : PieceType
deriving DecidableEq

/-- `len(board.pieces(pt, c))`: the number of pieces of kind `pt`
belonging to side `c`.  The board is modelled as the list of pieces on
it (the evaluator reads nothing else). -/
def countPieces (board : List Piece) (pt : PieceType) (c : Bool) : ℕ :=
  (board.filter (fun p => p.ptype == pt && p.color == c)).length

/-- `evaluate_board` from `main.py` lines 16-33: the per-kind count
differential (black minus white, weighted by 10) plus the signed
material value of every piece on the board. -/
def evaluate_board (board : List Piece) : ℤ :=
  let score := PIECE_TYPES.foldl
    (fun acc piece =>
      acc + ((countPieces board piece false : ℤ)
        - (countPieces board piece true : ℤ)) * 10) 0
  let material_value := board.foldl
    (fun acc p =>
      if p.color then acc + piece_value p.ptype else acc - piece_value p.ptype) 0
  score + material_value

/-- The spec's canonical piece values: pawn=1, knight=3, bishop=3,
rook=5, queen=9, king=0 (spec-side definition for the decomposition
claim). -/
def canonicalValue : PieceType → ℤ
  | .pawn => 1
  | .knight => 3
  | .bishop => 3
  | .rook => 5
  | .queen => 9
  | .king => 0

/-- The spec's term 1: for each piece kind, (count for black minus count
for white) times the constant weight 10, summed over all kinds. -/
def specCountTerm (board : List Piece) : ℤ :=
  (PIECE_TYPES.map (fun k =>
    ((countPieces board k false : ℤ) - (countPieces board k true : ℤ)) * 10)).sum

/-- The spec's term 2: each piece's canonical value, added for white
(side A) and subtracted for black (side B). -/
def specMaterialTerm (board : List Piece) : ℤ :=
  (board.map (fun p =>
    if p.color then canonicalValue p.ptype else -canonicalValue p.ptype)).sum

theorem canonicalValue_eq_piece_value (pt : PieceType) :
    canonicalValue pt = piece_value pt := by
  cases pt <;> rfl

/-- A left fold accumulating sums is the accumulator plus the list sum. -/
theorem foldl_add_eq_sum {α : Type} (f : α → ℤ) :
    ∀ (l : List α) (acc : ℤ),
      l.foldl (fun a x => a + f x) acc = acc + (l.map f).sum := by
  intro l
  induction l with
  | nil => intro acc; simp
  | cons x xs ih =>
    intro acc
    simp only [List.foldl_cons, List.map_cons, List.sum_cons]
    rw [ih]
    ring

/-- `evaluate_board` as a pair of list sums (shared shape lemma). -/
theorem evaluate_board_eq_sums (board : List Piece) :
    evaluate_board board
      = (PIECE_TYPES.map (fun k =>
          ((countPieces board k false : ℤ) - (countPieces board k true : ℤ)) * 10)).sum
        + (board.map (fun p =>
            if p.color then piece_value p.ptype else -piece_value p.ptype)).sum := by
  unfold evaluate_board
  have h1 := foldl_add_eq_sum
    (fun k => ((countPieces board k false : ℤ) - (countPieces board k true : ℤ)) * 10)
    PIECE_TYPES 0
  have hfun : (fun (acc : ℤ) (p : Piece) =>
        if p.color then acc + piece_value p.ptype else acc - piece_value p.ptype)
      = fun acc p => acc + (if p.color then piece_value p.ptype else -piece_value p.ptype) := by
    funext acc p
    cases hc : p.color with
    | true => simp [hc]
    | false => simp [hc, sub_eq_add_neg]
  rw [hfun, h1, foldl_add_eq_sum
    (fun p => if p.color then piece_value p.ptype else -piece_value p.ptype) board 0]
  ring

/-- **C7**: for every position, `evaluate_board` equals the sum of the
spec's two terms: the per-kind piece-count differential (black minus
white) weighted by the constant 10, plus the canonical material value of
each piece, added for white and subtracted for black. -/
theorem claim7_evaluate_decomposition (board : List Piece) :
    evaluate_board board = specCountTerm board + specMaterialTerm board := by
  rw [evaluate_board_eq_sums]
  unfold specCountTerm specMaterialTerm
  have hfun : (fun (p : Piece) =>
        if p.color then canonicalValue p.ptype else -canonicalValue p.ptype)
      = fun p => if p.color then piece_value p.ptype else -piece_value p.ptype := by
    funext p
    rw [canonicalValue_eq_piece_value]
  rw [hfun]

/-- The board with every piece recolored to the opposite side. -/
def swapSides (board : List Piece) : List Piece :=
  board.map (fun p => ⟨!p.color, p.ptype⟩)

theorem countPieces_swap (board : List Piece) (pt : PieceType) (c : Bool) :
    countPieces (swapSides board) pt c = countPieces board pt (!c) := by
  unfold countPieces swapSides
  rw [List.filter_map, List.length_map]
  apply congrArg List.length
  apply List.filter_congr
  intro p _
  show ((Piece.mk (!p.color) p.ptype).ptype == pt
      && (Piece.mk (!p.color) p.ptype).color == c)
    = (p.ptype == pt && p.color == !c)
  obtain ⟨pc, pp⟩ := p
  cases pc <;> cases c <;> rfl

/-- Sums of pointwise-negated maps are negated sums. -/
theorem sum_map_neg {α : Type} (f : α → ℤ) :
    ∀ l : List α, (l.map fun x => -f x).sum = -(l.map f).sum := by
  intro l
  induction l with
  | nil => simp
  | cons x xs ih => simp [ih]; ring

/-- **C8**: evaluating the position with the two sides swapped yields
exactly the negation of evaluating the original position — both the
piece-count differential and the material-value differential are
antisymmetric under side relabeling. -/
theorem claim8_swap_neg (board : List Piece) :
    evaluate_board (swapSides board) = -evaluate_board board := by
  rw [evaluate_board_eq_sums, evaluate_board_eq_sums]
  have hcount : (PIECE_TYPES.map (fun k =>
        ((countPieces (swapSides board) k false : ℤ)
          - (countPieces (swapSides board) k true : ℤ)) * 10)).sum
      = -(PIECE_TYPES.map (fun k =>
          ((countPieces board k false : ℤ) - (countPieces board k true : ℤ)) * 10)).sum := by
    rw [← sum_map_neg]
    apply congrArg List.sum
    apply List.map_congr_left
    intro k _
    rw [countPieces_swap, countPieces_swap]
    show ((countPieces board k true : ℤ) - (countPieces board k false : ℤ)) * 10
        = -(((countPieces board k false : ℤ) - (countPieces board k true : ℤ)) * 10)
    ring
  have hmat : ((swapSides board).map (fun p =>
        if p.color then piece_value p.ptype else -piece_value p.ptype)).sum
      = -(board.map (fun p =>
          if p.color then piece_value p.ptype else -piece_value p.ptype)).sum := by
    unfold swapSides
    rw [List.map_map, ← sum_map_neg]
    apply congrArg List.sum
    apply List.map_congr_left
    intro p _
    show (if (!p.color) = true then piece_value p.ptype else -piece_value p.ptype)
        = -(if p.color = true then piece_value p.ptype else -piece_value p.ptype)
    cases hc : p.color with
    | true => simp [hc]
    | false => simp [hc]
  rw [hcount, hmat]
  ring
